import Mathlib

/-!
Shallow embedding of the fontconfig-rs wrapper crate (yeslogic/fontconfig-rs).

The crate is a binding layer over the native fontconfig C library.  The
embedding translates the wrapper's own logic (result translation, assertion
wiring, iterators, the process-wide init counter) directly from the Rust
source.  Calls into the foreign library itself are modelled explicitly; each
such model carries a doc comment starting with "Modelled from the spec:".
Machine integers are modelled as `Nat`; fallible paths (panics) are modelled
with `Option`, where `none` is a panic.
-/

namespace Fontconfig

/-! ### Constants from fontconfig-sys/src/lib.rs -/

/-- FcBool true value (`const FcTrue: FcBool = 1` in fontconfig/src/lib.rs). -/
def FcTrue : Nat := 1

/-- FcBool false value. -/
def FcFalse : Nat := 0

/-- FcResult success code (`pub const FcResultMatch: u32 = 0`). -/
def FcResultMatch : Nat := 0

/-- FcResult code (`pub const FcResultNoMatch: u32 = 1`). -/
def FcResultNoMatch : Nat := 1

/-- FcResult code (`pub const FcResultTypeMismatch: u32 = 2`). -/
def FcResultTypeMismatch : Nat := 2

/-- FcResult code (`pub const FcResultNoId: u32 = 3`). -/
def FcResultNoId : Nat := 3

/-- FcResult code (`pub const FcResultOutOfMemory: u32 = 4`). -/
def FcResultOutOfMemory : Nat := 4

/-- FcLangResult code (`pub const FcLangEqual: u32 = 0`). -/
def FcLangEqual : Nat := 0

/-- FcLangResult code (`pub const FcLangDifferentCountry: u32 = 1`). -/
def FcLangDifferentCountry : Nat := 1

/-- FcLangResult code (`pub const FcLangDifferentTerritory: u32 = 1`);
note that it shares the value 1 with FcLangDifferentCountry. -/
def FcLangDifferentTerritory : Nat := 1

/-- FcLangResult code (`pub const FcLangDifferentLang: u32 = 2`). -/
def FcLangDifferentLang : Nat := 2

/-- Charset page map size in 32-bit words
(`pub const FC_CHARSET_MAP_SIZE: c_int = 8`). -/
def FC_CHARSET_MAP_SIZE : Nat := 8

/-- Charset iteration sentinel (`pub const FC_CHARSET_DONE: u32 = u32::MAX`). -/
def FC_CHARSET_DONE : Nat := 2 ^ 32 - 1

/-! ### C1: process-wide initialization counter (fontconfig/src/lib.rs)

`static INITIALIZED: Lazy<Arc<Mutex<usize>>>` guards a usize counter.
`impl Default for FontConfig` locks it, asserts `FcInit() == FcTrue` and
increments.  `impl Drop for FontConfig` locks it and runs
`if guard.checked_sub(1).unwrap() == 0 { FcFini() }`.  Note that the
`checked_sub` result is never written back to the guard, so the counter is
never decremented. -/

/-- Contents of the INITIALIZED mutex (a Rust usize counter). -/
structure InitState where
  count : Nat
deriving DecidableEq, Repr

/-- Embeds `impl Default for FontConfig` (lib.rs:314-328): lock, call FcInit,
increment the counter.  The FcInit call itself is foreign and is not part of
the counter state. -/
def FontConfig.defaultAcquire (s : InitState) : InitState :=
  { count := s.count + 1 }

/-- Embeds `impl Drop for FontConfig` (lib.rs:330-337):
`let guard = INITIALIZED.lock(); if guard.checked_sub(1).unwrap() == 0 { FcFini }`.
Returns `none` for the panic of `checked_sub(1).unwrap()` when the counter is
0; otherwise returns the (unchanged) state paired with whether FcFini was
invoked.  The decrement computed by `checked_sub` is discarded by the source:
the guard is never written to. -/
def FontConfig.dropHandle (s : InitState) : Option (InitState × Bool) :=
  match s.count with
  | 0 => none
  | Nat.succ _ => some (s, decide (s.count - 1 = 0))

/-! ### C2: result code translation (fontconfig/src/lib.rs:125-135) -/

/-- The wrapper's typed error enumeration (`enum Error` in
fontconfig/src/lib.rs); only the variants relevant to result translation are
listed, mirroring the source declaration order of those variants. -/
inductive FcError where
  | outOfMemory
  | noId
  | typeMismatch
  | noMatch
deriving DecidableEq, Repr

/-- Embeds `impl ToResult for sys::FcResult` method `ok` (lib.rs:125-135):
match on the foreign result code; the wildcard arm is `unreachable!()`, a
panic, modelled by `none`. -/
def FcResult.toResultOk (r : Nat) : Option (Except FcError Unit) :=
  if r = FcResultMatch then some (Except.ok ())
  else if r = FcResultNoMatch then some (Except.error FcError.noMatch)
  else if r = FcResultTypeMismatch then some (Except.error FcError.typeMismatch)
  else if r = FcResultNoId then some (Except.error FcError.noId)
  else none

/-! ### C8: matrix identity (fontconfig/src/matrix.rs)

The source fields are IEEE f64.  `Matrix::new` only stores the literals
`1.` and `0.` and performs no floating-point arithmetic, so the exact
rational constants model the construction faithfully. -/

/-- Embeds `sys::FcMatrix` (four f64 fields xx, xy, yx, yy). -/
structure FcMatrix where
  xx : Rat
  xy : Rat
  yx : Rat
  yy : Rat
deriving DecidableEq, Repr

/-- Embeds `Matrix::new` (matrix.rs:26-35): the identity transform. -/
def Matrix.new : FcMatrix :=
  { xx := 1, xy := 0, yx := 0, yy := 1 }

/-- Embeds `impl Default for Matrix` (matrix.rs:132-136): delegates to new. -/
def Matrix.defaultMatrix : FcMatrix :=
  Matrix.new

/-! ### C10: language comparison translation (src/langset.rs:36-47) -/

/-- Embeds `enum LangSetCmp` from src/langset.rs. -/
inductive LangSetCmp where
  | equal
  | differentCountry
  | differentTerritory
  | differentLang
deriving DecidableEq, Repr

/-- Embeds `impl From<sys::FcLangResult> for LangSetCmp` (langset.rs:36-47).
Rust const patterns are matched top to bottom: FcLangEqual, then
FcLangDifferentTerritory, then FcLangDifferentCountry (marked
`#[allow(unreachable_patterns)]` in the source), then FcLangDifferentLang;
the wildcard arm is `unreachable!()`, modelled by `none`. -/
def LangSetCmp.fromFcLangResult (v : Nat) : Option LangSetCmp :=
  if v = FcLangEqual then some LangSetCmp.equal
  else if v = FcLangDifferentTerritory then some LangSetCmp.differentTerritory
  else if v = FcLangDifferentCountry then some LangSetCmp.differentCountry
  else if v = FcLangDifferentLang then some LangSetCmp.differentLang
  else none

/-! ### C4: parsing a pattern from a textual name string

`impl FromStr for OwnedPattern` (fontconfig/src/pattern.rs:354-368) and
`impl FromStr for Pattern` (fontconfig/src/lib.rs:603-617) have identical
structure: build a CString (unwrap panics on interior NUL), call the foreign
parser FcNameParse, and return Ok on a non-null handle or
`Err(Error::OutOfMemory)` on a null handle.  The foreign parse result is a
parameter: `none` models a null return, `some h` a non-null handle `h`. -/

/-- Embeds `CString::new(s).unwrap()`: panics (`none`) exactly when the byte
string contains an interior NUL byte. -/
def cstringNew (s : List Nat) : Option (List Nat) :=
  if 0 ∈ s then none else some s

/-- Embeds `impl FromStr for OwnedPattern` (pattern.rs:354-368); the outer
`none` is the CString unwrap panic. -/
def OwnedPattern.fromStr (s : List Nat) (parseResult : Option Nat) :
    Option (Except FcError Nat) :=
  match cstringNew s with
  | none => none
  | some _ =>
    match parseResult with
    | some pat => some (Except.ok pat)
    | none => some (Except.error FcError.outOfMemory)

/-- Embeds `impl FromStr for Pattern` (lib.rs:603-617); same structure as the
OwnedPattern instance. -/
def Pattern.fromStr (s : List Nat) (parseResult : Option Nat) :
    Option (Except FcError Nat) :=
  match cstringNew s with
  | none => none
  | some _ =>
    match parseResult with
    | some pat => some (Except.ok pat)
    | none => some (Except.error FcError.outOfMemory)

/-- Stated from the spec sentence for comparison: parsing yields a pattern
owning the non-null handle, and fails when the foreign parser returns a null
handle. -/
def parseSpecOutcome (parseResult : Option Nat) : Except FcError Nat :=
  match parseResult with
  | some pat => Except.ok pat
  | none => Except.error FcError.outOfMemory

/-! ### C5 / C7: boolean-flag mutating operations and the font set

Each operation below performs a foreign call returning an FcBool and then
runs `assert_eq!(res, FcTrue)`; the assertion failure (panic) is modelled by
`none`.  The foreign call's returned flag is the explicit parameter `res`,
and its effect on the foreign object is modelled from the spec (the sets are
member lists; FcObjectSetAdd/FcCharSetAddChar/FcCharSetDelChar/FcCharSetMerge/
FcFontSetAdd append, insert, delete or merge members). -/

/-- Embeds `ObjectSet::add` (objectset.rs:33-36): foreign FcObjectSetAdd
(modelled from the spec: appends the attribute name), then
`assert_eq!(res, FcTrue)`. -/
def ObjectSet.add (names : List String) (name : String) (res : Nat) :
    Option (List String) :=
  if res = FcTrue then some (names ++ [name]) else none

/-- Embeds `OwnedCharSet::add_char` (charset.rs:118-121): foreign
FcCharSetAddChar (modelled from the spec: inserts the code point), then
`assert_eq!(res, FcTrue)`. -/
def OwnedCharSet.addChar (cs : List Nat) (c : Nat) (res : Nat) :
    Option (List Nat) :=
  if res = FcTrue then some (cs.insert c) else none

/-- Embeds `OwnedCharSet::del_char` (charset.rs:124-127): foreign
FcCharSetDelChar (modelled from the spec: removes the code point), then
`assert_eq!(res, FcTrue)`. -/
def OwnedCharSet.delChar (cs : List Nat) (c : Nat) (res : Nat) :
    Option (List Nat) :=
  if res = FcTrue then some (cs.filter (fun x => x ≠ c)) else none

/-- Embeds `OwnedCharSet::merge` (charset.rs:130-141): foreign FcCharSetMerge
(modelled from the spec: adds all members of the other set), then
`assert_eq!(res, FcTrue)`. -/
def OwnedCharSet.merge (cs other : List Nat) (res : Nat) :
    Option (List Nat) :=
  if res = FcTrue then some (cs ++ other) else none

/-- Embeds `FontSet::push` (fontset.rs:39-46): foreign FcFontSetAdd (modelled
from the spec: appends the transferred pattern pointer to the ordered array),
wrapped in `assert_eq!(.., FcTrue)`.  Pattern handles are modelled as raw
pointers (`Nat`, 0 = null); `push` consumes an OwnedPattern, whose handle is
non-null. -/
def FontSet.push (fonts : List Nat) (pat : Nat) (res : Nat) :
    Option (List Nat) :=
  if res = FcTrue then some (fonts ++ [pat]) else none

/-- Embeds `FontSet::new` (fontset.rs:29-35): foreign FcFontSetCreate
(modelled from the spec: a fresh empty ordered array). -/
def FontSet.new : List Nat := []

/-- Embeds `FontSet::len` (fontset.rs:49-52): reads the foreign `nfont`
field, the number of patterns in the array. -/
def FontSet.len (fonts : List Nat) : Nat := fonts.length

/-- Iterator state of `fontset::Iter` (fontset.rs:138-143): a borrow of the
font set and a running index. -/
structure FontSetIter where
  fonts : List Nat
  index : Nat
deriving DecidableEq, Repr

/-- Embeds `impl Iterator for fontset::Iter` method `next`
(fontset.rs:145-165): bump the index; if the saved index is past `nfont`
return None; read the pattern pointer at that index (the slot pointer
`fonts.add(index)` of a live array is never null, so that check cannot
fire); return None on a null pattern pointer, otherwise the borrowed
pattern. -/
def FontSetIter.next (it : FontSetIter) : Option (Nat × FontSetIter) :=
  let index := it.index
  let bumped : FontSetIter := { it with index := index + 1 }
  if it.fonts.length ≤ index then none
  else
    let pat := it.fonts.getD index 0
    if pat = 0 then none else some (pat, bumped)

/-- Runs the font-set iterator to exhaustion (fuel-indexed; any fuel larger
than the array length is enough). -/
def fontSetCollect : Nat → FontSetIter → List Nat
  | 0, _ => []
  | n + 1, it =>
    match it.next with
    | none => []
    | some (p, it2) => p :: fontSetCollect n it2

/-- Embeds one full pass of `FontSet::iter` (fontset.rs:66-71): a fresh
iterator starting at index 0 over the borrowed set, run to exhaustion.
Each call to `iter` builds a fresh iterator, so repeated passes are
independent and do not mutate the set. -/
def FontSet.iterList (fonts : List Nat) : List Nat :=
  fontSetCollect (fonts.length + 1) { fonts := fonts, index := 0 }

/-! ### C6: character-set algebra (src/charset.rs:52-75)

`CharSet::intersect`, `CharSet::subtract` and `CharSet::union` call the
foreign FcCharSetIntersect/FcCharSetSubtract/FcCharSetUnion, which produce a
new owned set (the wrapper panics via `.expect(..)` on a null result; the
foreign calls are modelled as total).  Character sets are modelled by their
member lists. -/

/-- Modelled from the spec: FcCharSetIntersect returns a newly created set
holding the members common to both operands, leaving the operands
unchanged. -/
def fcCharSetIntersect (a b : List Nat) : List Nat :=
  a.filter (fun c => c ∈ b)

/-- Modelled from the spec: FcCharSetSubtract returns a newly created set
holding the members of the first operand not in the second, leaving the
operands unchanged. -/
def fcCharSetSubtract (a b : List Nat) : List Nat :=
  a.filter (fun c => c ∉ b)

/-- Modelled from the spec: FcCharSetUnion returns a newly created set
holding the members of either operand, leaving the operands unchanged. -/
def fcCharSetUnion (a b : List Nat) : List Nat :=
  a ++ b

/-- Embeds `CharSet::intersect` (charset.rs:52-59). -/
def CharSet.intersect (a b : List Nat) : List Nat := fcCharSetIntersect a b

/-- Embeds `CharSet::subtract` (charset.rs:61-67). -/
def CharSet.subtract (a b : List Nat) : List Nat := fcCharSetSubtract a b

/-- Embeds `CharSet::union` (charset.rs:69-75). -/
def CharSet.union (a b : List Nat) : List Nat := fcCharSetUnion a b

/-! ### C9: string-set iterator (fontconfig/src/stringset.rs:104-118)

The foreign cursor FcStrListNext yields C strings until it returns a null
pointer.  The cursor is modelled as the list of its remaining entries; each
entry records the result of `CStr::to_str()` on the returned bytes (`some`
for valid UTF-8, `none` for invalid).  An exhausted list models the null
return. -/

/-- Embeds `impl Iterator for StringSetIter` method `next`
(stringset.rs:104-118): take the next entry from the foreign cursor; a null
pointer ends iteration; a valid UTF-8 entry is yielded; an invalid entry is
skipped by recursing (`.ok().or_else(|| self.next())`). -/
def StringSetIter.next :
    List (Option String) → Option (String × List (Option String))
  | [] => none
  | entry :: rest =>
    match entry with
    | some s => some (s, rest)
    | none => StringSetIter.next rest

/-- Runs the string-set iterator to exhaustion (fuel-indexed; any fuel larger
than the entry count is enough). -/
def stringSetCollect : Nat → List (Option String) → List String
  | 0, _ => []
  | n + 1, l =>
    match StringSetIter.next l with
    | none => []
    | some (s, rest) => s :: stringSetCollect n rest

/-! ### C3: character-set page/bit-scan iteration (src/charset.rs:78-98 and
221-296)

The foreign library exposes a charset to the iterator only through
FcCharSetFirstPage/FcCharSetNextPage: 256-code-point bitmap pages of
FC_CHARSET_MAP_SIZE (8) 32-bit words, enumerated in ascending page order and
ending at the FC_CHARSET_DONE sentinel.  A charset is modelled by its member
list `cs : List Nat`; its pages are derived below.  The wrapper can only
insert `char` values (`add_char` takes `c: char`), so members are Unicode
scalar values; the page index range used in the model covers exactly that
range (0x1100 pages of 256 code points each). -/

/-- Embeds the check done by Rust `char::try_from(u32)`: a code point is a
valid Unicode scalar value iff it is below the surrogate range or between
the surrogates and 0x110000. -/
def isValidCharNat (n : Nat) : Bool :=
  decide (n < 0xD800) || (decide (0xE000 ≤ n) && decide (n < 0x110000))

/-- Builds the low n bits of a bitmap word: bit k is set iff code point
`start + k` is a member of cs. -/
def wordOfAux (cs : List Nat) (start : Nat) : Nat → Nat
  | 0 => 0
  | n + 1 => (if start ∈ cs then 1 else 0) + 2 * wordOfAux cs (start + 1) n

/-- One 32-bit bitmap word of a page: bit k set iff `start + k ∈ cs`. -/
def wordOf (cs : List Nat) (start : Nat) : Nat :=
  wordOfAux cs start 32

/-- The 8-word bitmap of the page with the given base code point. -/
def pageMap (cs : List Nat) (base : Nat) : List Nat :=
  (List.range 8).map (fun j => wordOf cs (base + 32 * j))

/-- A page as handed out by the foreign page cursor: base code point plus
its 8-word bitmap. -/
structure FcPage where
  base : Nat
  map : List Nat
deriving DecidableEq, Repr

/-- Modelled from the spec: the sequence of (non-empty-range) pages of the
foreign charset, as enumerated by FcCharSetFirstPage/FcCharSetNextPage —
code points partitioned into fixed-size 256-code-point bitmap pages visited
in ascending order until the foreign FC_CHARSET_DONE sentinel.  Page indices
range over the Unicode scalar pages 0 ≤ p < 0x1100. -/
def pagesOf (cs : List Nat) : List FcPage :=
  ((List.range 4352).filter (fun p => cs.any (fun c => c / 256 = p))).map
    (fun p => { base := 256 * p, map := pageMap cs (256 * p) })

/-- Iterator state of `charset::Iter` (charset.rs:212-219).  The source
fields are the borrowed set, `codepoint` (current page base or the
FC_CHARSET_DONE sentinel), `next` (the foreign cursor position), `map`, `i`
and `bit`.  The foreign cursor is modelled by the list of remaining pages;
the source's `next == FC_CHARSET_DONE` test corresponds to that list being
empty (the foreign cursor has no further page to yield). -/
structure CsIterState where
  codepoint : Nat
  map : List Nat
  pages : List FcPage
  i : Nat
  bit : Nat
deriving DecidableEq, Repr

/-- Embeds the inner `while n & 1 == 0` scan of `Iter::next`
(charset.rs:256-280): starting from word `bits` shifted by `bit`, advance
`bit` until the low bit is set; returns the found bit index, or `none` when
the loop breaks to move to the next word (rest of the word zero, or bit
index past 31; both break paths set `i += 1; bit = 0` in the source).  The
source's third break (`self.i >= MAP_SIZE`) is unreachable — `i` is
unchanged inside the loop and was checked `< MAP_SIZE` on entry.  Fuel-
indexed structural recursion; fuel 33 always suffices since `bit` grows to
at most 32. -/
def scanWord : Nat → Nat → Nat → Option Nat
  | 0, _, _ => none
  | fuel + 1, bits, bit =>
    let n := bits >>> bit
    if n &&& 1 = 1 then some bit
    else if n = 0 then none
    else if bit + 1 > 31 then none
    else scanWord fuel bits (bit + 1)

/-- Embeds `impl Iterator for charset::Iter` method `next`
(charset.rs:221-296), fuel-indexed (the outer `none` is fuel exhaustion and
is never reached from well-formed states; see `csNextF_spec`).  The inner
value is the iterator's result: `none` for the Rust `None`, otherwise the
yielded code point and successor state.  Per the source: the DONE sentinel
ends iteration; at the end of a page the next page is loaded (or the
sentinel installed) — `i` is reset, `bit` is not; an all-zero word is
skipped; otherwise the word is bit-scanned and the found code point is
reconstructed as `codepoint + 32*i + bit` (u32 arithmetic, hence mod 2^32)
and converted through `char::try_from`, whose failure yields `None`. -/
def csNextF : Nat → CsIterState → Option (Option (Nat × CsIterState))
  | 0, _ => none
  | fuel + 1, s =>
    if s.codepoint = FC_CHARSET_DONE then some none
    else if FC_CHARSET_MAP_SIZE ≤ s.i then
      match s.pages with
      | [] => csNextF fuel { s with codepoint := FC_CHARSET_DONE }
      | p :: rest =>
        csNextF fuel
          { s with codepoint := p.base, map := p.map, pages := rest, i := 0 }
    else
      let bits := s.map.getD s.i 0
      if bits = 0 then csNextF fuel { s with i := s.i + 1, bit := 0 }
      else
        match scanWord 33 bits s.bit with
        | none => csNextF fuel { s with i := s.i + 1, bit := 0 }
        | some b =>
          let cp := (s.codepoint + 32 * s.i + b) % 2 ^ 32
          let s2 : CsIterState :=
            if b + 1 > 31 then { s with i := s.i + 1, bit := 0 }
            else { s with bit := b + 1 }
          some (if isValidCharNat cp then some (cp, s2) else none)

/-- Fuel sufficient for one `csNextF` call from state s (see
`csNextF_spec`). -/
def csNextFuel (s : CsIterState) : Nat :=
  10 * s.pages.length + 12

/-- Embeds one call of `Iter::next` with sufficient fuel. -/
def csNext (s : CsIterState) : Option (Nat × CsIterState) :=
  (csNextF (csNextFuel s) s).getD none

/-- Embeds `CharSet::iter` (charset.rs:78-98): a zeroed 8-word map, a
FcCharSetFirstPage call (for an empty set it returns the FC_CHARSET_DONE
sentinel and leaves the zeroed map; otherwise it loads the lowest page and
positions the cursor after it), and `i = 0`, `bit = 0`. -/
def csIterInit (cs : List Nat) : CsIterState :=
  match pagesOf cs with
  | [] =>
    { codepoint := FC_CHARSET_DONE, map := List.replicate 8 0, pages := [],
      i := 0, bit := 0 }
  | p :: rest =>
    { codepoint := p.base, map := p.map, pages := rest, i := 0, bit := 0 }

/-- Runs the charset iterator to exhaustion (fuel-indexed; any fuel beyond
the member count is enough). -/
def csCollect : Nat → CsIterState → List Nat
  | 0, _ => []
  | n + 1, s =>
    match csNext s with
    | none => []
    | some (c, s2) => c :: csCollect n s2

/-- Embeds a full pass of the `CharSet` iterator over the modelled set:
256 code points per page bounds the yield count. -/
def CharSet.iterList (cs : List Nat) : List Nat :=
  csCollect (256 * (pagesOf cs).length + 1) (csIterInit cs)

/-! Specification-side description of what remains to be yielded from an
iterator state, in traversal order.  These definitions exist to state and
prove the step characterization of `csNextF`; they are not part of the
embedding of the source. -/

/-- Set bit positions of word w in `[b, b + n)`, ascending. -/
def bitsIn (w : Nat) : Nat → Nat → List Nat
  | _, 0 => []
  | b, n + 1 =>
    if w.testBit b then b :: bitsIn w (b + 1) n else bitsIn w (b + 1) n

/-- Set bit positions of a 32-bit word from position b on, ascending. -/
def bitsFrom (w b : Nat) : List Nat :=
  bitsIn w b (32 - b)

/-- Code points contributed by word i of a page, from bit b on. -/
def wordElemsFrom (base i w b : Nat) : List Nat :=
  (bitsFrom w b).map (fun k => base + 32 * i + k)

/-- Code points contributed by the words `ws` of a page starting at word
index i, the first word from bit b on, the rest in full. -/
def wordsElemsAux (base : Nat) : Nat → Nat → List Nat → List Nat
  | _, _, [] => []
  | i, b, w :: ws => wordElemsFrom base i w b ++ wordsElemsAux base (i + 1) 0 ws

/-- Code points of the page (base, mp) at or after position (i, b). -/
def pageElemsFrom (base : Nat) (mp : List Nat) (i b : Nat) : List Nat :=
  wordsElemsAux base i b (mp.drop i)

/-- All code points of a page. -/
def pageElems (p : FcPage) : List Nat :=
  pageElemsFrom p.base p.map 0 0

/-- All code points of a list of pages, in order. -/
def pagesElems : List FcPage → List Nat
  | [] => []
  | p :: ps => pageElems p ++ pagesElems ps

/-- Code points the iterator state has yet to yield, in traversal order. -/
def csRem (s : CsIterState) : List Nat :=
  if s.codepoint = FC_CHARSET_DONE then []
  else pageElemsFrom s.codepoint s.map s.i s.bit ++ pagesElems s.pages

/-- Well-formedness of an iterator state: reachable states have an 8-word
map of 32-bit words (likewise for every pending page), position bounds as
established by every transition of `Iter::next` (in particular `bit` is 0
whenever `i` has run past the map), and only valid Unicode scalar values
left to yield. -/
structure CsWF (s : CsIterState) : Prop where
  maplen : s.map.length = 8
  mapbound : ∀ w ∈ s.map, w < 2 ^ 32
  pagelen : ∀ p ∈ s.pages, p.map.length = 8
  pagebound : ∀ p ∈ s.pages, ∀ w ∈ p.map, w < 2 ^ 32
  ibound : s.i ≤ 8
  bitbound : s.bit ≤ 31
  bitzero : 8 ≤ s.i → s.bit = 0
  pagesBase : ∀ p ∈ s.pages, p.base ≠ FC_CHARSET_DONE
  valid : ∀ c ∈ csRem s, isValidCharNat c = true

/-! ### Theorems -/

/-- C1: the claim says every drop of a configuration handle decrements the
counter by one and FcFini runs exactly when the live-handle count reaches
zero, so that after two acquisitions dropping both handles triggers FcFini.
The code never writes the decrement back: starting from counter 0, two
acquisitions leave the counter at 2, and each of the two drops observes the
unchanged counter 2, computes 2 - 1 = 1 ≠ 0, performs no FcFini and leaves
the counter at 2.  Teardown is never triggered, contradicting the
specification and the evident intent of the mutex-guarded counter. -/
theorem fontConfig_drop_never_decrements :
    FontConfig.defaultAcquire (FontConfig.defaultAcquire ⟨0⟩) = ⟨2⟩ ∧
    FontConfig.dropHandle ⟨2⟩ = some (⟨2⟩, false) ∧
    (FontConfig.dropHandle ⟨2⟩).bind (fun p => FontConfig.dropHandle p.1) =
      some (⟨2⟩, false) ∧
    FontConfig.dropHandle ⟨1⟩ = some (⟨1⟩, true) := by
  decide

/-- C2 counterexample: the claim states that `ToResult::ok` maps
FcResultOutOfMemory to `Err(Error::OutOfMemory)`.  In the source the match
has no arm for FcResultOutOfMemory and falls into `unreachable!()`, a panic
(`none` in the embedding), not a recoverable error. -/
theorem toResultOk_outOfMemory_not_error :
    FcResult.toResultOk FcResultOutOfMemory ≠
      some (Except.error FcError.outOfMemory) := by
  intro h
  simp [FcResult.toResultOk, FcResultOutOfMemory, FcResultMatch, FcResultNoMatch,
    FcResultTypeMismatch, FcResultNoId] at h

/-- C2 amended: `ToResult::ok` is total on four of the five result codes:
FcResultMatch maps to Ok, and the three failure codes FcResultNoMatch,
FcResultTypeMismatch and FcResultNoId map to their typed errors, which
calling code can pattern-match and recover from; FcResultOutOfMemory — and
every other value — triggers the `unreachable!()` panic instead of returning
`Error::OutOfMemory`. -/
theorem toResultOk_total_on_four_codes :
    FcResult.toResultOk FcResultMatch = some (Except.ok ()) ∧
    FcResult.toResultOk FcResultNoMatch = some (Except.error FcError.noMatch) ∧
    FcResult.toResultOk FcResultTypeMismatch =
      some (Except.error FcError.typeMismatch) ∧
    FcResult.toResultOk FcResultNoId = some (Except.error FcError.noId) ∧
    FcResult.toResultOk FcResultOutOfMemory = none ∧
    ∀ r : Nat, (FcResult.toResultOk r).isSome = decide (r < 4) := by
  refine ⟨rfl, rfl, rfl, rfl, rfl, ?_⟩
  intro r
  unfold FcResult.toResultOk
  unfold FcResultMatch FcResultNoMatch FcResultTypeMismatch FcResultNoId
  split_ifs with h0 h1 h2 h3 <;> simp_all <;> omega

/-- C8: `Matrix::new`, and therefore `Matrix::default`, returns the identity
2×2 affine transform: xx = yy = 1 and xy = yx = 0. -/
theorem matrix_new_identity :
    Matrix.defaultMatrix = Matrix.new ∧
    Matrix.new.xx = 1 ∧ Matrix.new.xy = 0 ∧
    Matrix.new.yx = 0 ∧ Matrix.new.yy = 1 := by
  refine ⟨rfl, rfl, rfl, rfl, rfl⟩

/-- C10: the conversion from the foreign language-comparison result never
produces LangSetCmp::DifferentCountry (the territory arm matches value 1
first, since FcLangDifferentCountry and FcLangDifferentTerritory share the
value 1); it is total on the foreign values 0, 1, 2, mapping them to Equal,
DifferentTerritory and DifferentLang respectively, and panics
(`unreachable!()`) on every other value. -/
theorem langSetCmp_from_never_differentCountry :
    (∀ v : Nat, LangSetCmp.fromFcLangResult v ≠ some LangSetCmp.differentCountry) ∧
    LangSetCmp.fromFcLangResult 0 = some LangSetCmp.equal ∧
    LangSetCmp.fromFcLangResult 1 = some LangSetCmp.differentTerritory ∧
    LangSetCmp.fromFcLangResult 2 = some LangSetCmp.differentLang ∧
    (∀ v : Nat, LangSetCmp.fromFcLangResult (v + 3) = none) := by
  refine ⟨?_, by decide, by decide, by decide, ?_⟩
  · intro v
    unfold LangSetCmp.fromFcLangResult
    unfold FcLangEqual FcLangDifferentTerritory FcLangDifferentCountry
      FcLangDifferentLang
    split_ifs with h0 h1 h2 h3 <;> simp_all
  · intro v
    unfold LangSetCmp.fromFcLangResult
    unfold FcLangEqual FcLangDifferentTerritory FcLangDifferentCountry
      FcLangDifferentLang
    split_ifs with h0 h1 h2 h3 <;> first | rfl | omega | simp_all

/-- C4: parsing a pattern from a textual name string (both FromStr
implementations) fails — with the error value `Error::OutOfMemory` — exactly
when the foreign parser FcNameParse returns a null handle, and returns Ok
with a pattern owning the handle when it is non-null.  The hypothesis
excludes interior NUL bytes, on which `CString::new(..).unwrap()` panics
before the parser runs. -/
theorem pattern_fromStr_err_iff_null (s : List Nat) (pr : Option Nat)
    (hs : ¬ 0 ∈ s) :
    OwnedPattern.fromStr s pr = some (parseSpecOutcome pr) ∧
    Pattern.fromStr s pr = some (parseSpecOutcome pr) := by
  unfold OwnedPattern.fromStr Pattern.fromStr cstringNew parseSpecOutcome
  rw [if_neg hs]
  cases pr <;> exact ⟨rfl, rfl⟩

/-- C4 witness: the theorem applied to the one-byte name "f" and a non-null
parse handle 1. -/
theorem pattern_fromStr_err_iff_null_witness :
    ¬ 0 ∈ ([102] : List Nat) ∧
    (OwnedPattern.fromStr [102] (some 1) = some (parseSpecOutcome (some 1)) ∧
     Pattern.fromStr [102] (some 1) = some (parseSpecOutcome (some 1))) :=
  ⟨by decide, pattern_fromStr_err_iff_null [102] (some 1) (by decide)⟩

/-- C5: every mutation operation whose foreign call reports failure through
a boolean flag — ObjectSet::add, OwnedCharSet::add_char,
OwnedCharSet::del_char, OwnedCharSet::merge and FontSet::push — panics
(assertion failure, modelled by `none`) exactly when the foreign flag is not
FcTrue, in particular on a false (FcFalse) return; each returns an
`Option` of the plain updated state, so no recoverable error value exists in
any of their return types. -/
theorem bool_flag_ops_panic_iff_not_true :
    ∀ (res : Nat) (names : List String) (name : String)
      (cs other fonts : List Nat) (c pat : Nat),
      (ObjectSet.add names name res = none ↔ res ≠ FcTrue) ∧
      (OwnedCharSet.addChar cs c res = none ↔ res ≠ FcTrue) ∧
      (OwnedCharSet.delChar cs c res = none ↔ res ≠ FcTrue) ∧
      (OwnedCharSet.merge cs other res = none ↔ res ≠ FcTrue) ∧
      (FontSet.push fonts pat res = none ↔ res ≠ FcTrue) ∧
      (ObjectSet.add names name FcFalse = none ∧
       OwnedCharSet.addChar cs c FcFalse = none ∧
       OwnedCharSet.delChar cs c FcFalse = none ∧
       OwnedCharSet.merge cs other FcFalse = none ∧
       FontSet.push fonts pat FcFalse = none) := by
  intro res names name cs other fonts c pat
  unfold ObjectSet.add OwnedCharSet.addChar OwnedCharSet.delChar
    OwnedCharSet.merge FontSet.push FcTrue FcFalse
  split_ifs with h <;> simp_all

/-- C6: character-set intersection, subtraction and union produce new owned
sets behaving as classical set algebra on membership (the operands, taken by
shared reference, are unchanged); on the concrete sets {a, c} = {97, 99} and
{b, c} = {98, 99}: the intersection has exactly member 99, the subtraction
exactly member 97, and the union contains 97, 98 and 99. -/
theorem charset_set_algebra :
    (∀ (a b : List Nat) (c : Nat),
      (c ∈ CharSet.intersect a b ↔ c ∈ a ∧ c ∈ b) ∧
      (c ∈ CharSet.subtract a b ↔ c ∈ a ∧ c ∉ b) ∧
      (c ∈ CharSet.union a b ↔ c ∈ a ∨ c ∈ b)) ∧
    CharSet.intersect [97, 99] [98, 99] = [99] ∧
    CharSet.subtract [97, 99] [98, 99] = [97] ∧
    (∀ c ∈ [97, 98, 99], c ∈ CharSet.union [97, 99] [98, 99]) := by
  refine ⟨?_, by decide, by decide, by decide⟩
  intro a b c
  unfold CharSet.intersect CharSet.subtract CharSet.union
    fcCharSetIntersect fcCharSetSubtract fcCharSetUnion
  refine ⟨?_, ?_, ?_⟩ <;> simp [List.mem_filter]

/-- C7: pushing exactly one (non-null) pattern into a freshly created
FontSet succeeds, FontSet::len then returns 1, and a full iteration pass
yields exactly that one element before hitting None (the iterator at index 1
returns None); each pass is a fresh iterator over the unmutated set, and the
number of yielded elements equals len. -/
theorem fontset_push_len_iter (pat : Nat) (hp : pat ≠ 0) :
    FontSet.push FontSet.new pat FcTrue = some [pat] ∧
    FontSet.len [pat] = 1 ∧
    FontSet.iterList [pat] = [pat] ∧
    FontSetIter.next { fonts := [pat], index := 1 } = none ∧
    (FontSet.iterList [pat]).length = FontSet.len [pat] := by
  refine ⟨rfl, rfl, ?_, rfl, ?_⟩ <;>
    simp [FontSet.iterList, fontSetCollect, FontSetIter.next, FontSet.len, hp]

/-- C7 witness: the theorem applied to the concrete non-null pattern
handle 1. -/
theorem fontset_push_len_iter_witness :
    (1 : Nat) ≠ 0 ∧
    (FontSet.push FontSet.new 1 FcTrue = some [1] ∧
     FontSet.len [1] = 1 ∧
     FontSet.iterList [1] = [1] ∧
     FontSetIter.next { fonts := [1], index := 1 } = none ∧
     (FontSet.iterList [1]).length = FontSet.len [1]) :=
  ⟨by decide, fontset_push_len_iter 1 (by decide)⟩

/-- Helper for C9: the iterator yields nothing exactly when every remaining
entry of the cursor is invalid UTF-8 (so the recursion runs into the null
return). -/
theorem stringSetIter_next_eq_none_iff (l : List (Option String)) :
    StringSetIter.next l = none ↔ l.filterMap id = [] := by
  induction l with
  | nil => simp [StringSetIter.next]
  | cons e rest ih =>
    cases e with
    | some s => simp [StringSetIter.next]
    | none => simpa [StringSetIter.next] using ih

/-- Helper for C9: a yielded string is the first valid entry; the skipped
invalid entries disappear and the cursor strictly advances. -/
theorem stringSetIter_next_eq_some (l : List (Option String)) (s : String)
    (rest : List (Option String)) (h : StringSetIter.next l = some (s, rest)) :
    l.filterMap id = s :: rest.filterMap id ∧ rest.length < l.length := by
  induction l with
  | nil => simp [StringSetIter.next] at h
  | cons e tail ih =>
    cases e with
    | some t =>
      simp [StringSetIter.next] at h
      obtain ⟨rfl, rfl⟩ := h
      simp
    | none =>
      simp only [StringSetIter.next] at h
      have := ih h
      refine ⟨by simpa using this.1, by simpa using Nat.lt_succ_of_lt this.2⟩

/-- Helper for C9: with enough fuel, running the iterator to exhaustion
yields exactly the valid-UTF-8 entries of the cursor, in order. -/
theorem stringSetCollect_eq_filterMap :
    ∀ (n : Nat) (l : List (Option String)), l.length < n →
      stringSetCollect n l = l.filterMap id := by
  intro n
  induction n with
  | zero => intro l hl; omega
  | succ n ih =>
    intro l hl
    unfold stringSetCollect
    cases hnext : StringSetIter.next l with
    | none => rw [(stringSetIter_next_eq_none_iff l).mp hnext]
    | some pr =>
      obtain ⟨s, rest⟩ := pr
      obtain ⟨hfm, hlen⟩ := stringSetIter_next_eq_some l s rest hnext
      rw [hfm]
      show s :: stringSetCollect n rest = s :: List.filterMap id rest
      rw [ih rest (by omega)]

/-- C9: the single-pass string-set iterator returns None exactly when the
foreign cursor FcStrListNext yields a null pointer (i.e. when no valid entry
remains before the end of the list), and entries whose bytes are not valid
UTF-8 are silently skipped by recursing to the following entry — a full run
yields exactly the valid entries in order, never an error. -/
theorem stringset_iter_skips_invalid :
    ∀ l : List (Option String),
      (StringSetIter.next l = none ↔ l.filterMap id = []) ∧
      stringSetCollect (l.length + 1) l = l.filterMap id := by
  intro l
  exact ⟨stringSetIter_next_eq_none_iff l,
    stringSetCollect_eq_filterMap (l.length + 1) l (by omega)⟩

/-! C3 helper lemmas: bitmap words. -/

/-- Helper for C3: a bitmap word built from n bits is below 2^n. -/
theorem wordOfAux_lt (cs : List Nat) :
    ∀ (n start : Nat), wordOfAux cs start n < 2 ^ n := by
  intro n
  induction n with
  | zero => intro start; simp [wordOfAux]
  | succ n ih =>
    intro start
    rw [wordOfAux]
    have h1 := ih (start + 1)
    have h2 : 2 ^ (n + 1) = 2 ^ n * 2 := Nat.pow_succ 2 n
    split_ifs <;> omega

/-- Helper for C3: bit k of a bitmap word is membership of `start + k`. -/
theorem testBit_wordOfAux (cs : List Nat) :
    ∀ (n start k : Nat),
      (wordOfAux cs start n).testBit k =
        (decide (k < n) && decide ((start + k) ∈ cs)) := by
  intro n
  induction n with
  | zero => intro start k; simp [wordOfAux]
  | succ n ih =>
    intro start k
    cases k with
    | zero =>
      rw [wordOfAux, Nat.testBit_zero]
      by_cases h : start ∈ cs <;> simp [h, Nat.add_mul_mod_self_left]
    | succ k =>
      have hdiv :
          ((if start ∈ cs then 1 else 0) + 2 * wordOfAux cs (start + 1) n) / 2 =
            wordOfAux cs (start + 1) n := by
        split_ifs <;> omega
      rw [wordOfAux, Nat.testBit_add_one, hdiv, ih (start + 1) k]
      have harg : start + 1 + k = start + (k + 1) := by omega
      rw [harg]
      by_cases hmem : start + (k + 1) ∈ cs <;> simp [hmem] <;> omega

/-- Helper for C3: membership in the list of set bits of a range. -/
theorem bitsIn_mem (w : Nat) :
    ∀ (n b k : Nat),
      k ∈ bitsIn w b n ↔ b ≤ k ∧ k < b + n ∧ w.testBit k = true := by
  intro n
  induction n with
  | zero => intro b k; simp [bitsIn]; omega
  | succ n ih =>
    intro b k
    rw [bitsIn]
    split_ifs with h
    · rw [List.mem_cons, ih (b + 1) k]
      constructor
      · rintro (rfl | ⟨h1, h2, h3⟩)
        · exact ⟨Nat.le_refl _, by omega, h⟩
        · exact ⟨by omega, by omega, h3⟩
      · rintro ⟨h1, h2, h3⟩
        rcases Nat.eq_or_lt_of_le h1 with rfl | hlt
        · exact Or.inl rfl
        · exact Or.inr ⟨hlt, by omega, h3⟩
    · rw [ih (b + 1) k]
      constructor
      · rintro ⟨h1, h2, h3⟩
        exact ⟨by omega, by omega, h3⟩
      · rintro ⟨h1, h2, h3⟩
        have hk : k ≠ b := by
          intro e
          rw [e] at h3
          exact h (by simp [h3])
        exact ⟨by omega, by omega, h3⟩

/-- Helper for C3: the set-bit list of a range is strictly ascending. -/
theorem bitsIn_sorted (w : Nat) :
    ∀ (n b : Nat), (bitsIn w b n).Sorted (· < ·) := by
  intro n
  induction n with
  | zero => intro b; simp [bitsIn]
  | succ n ih =>
    intro b
    rw [bitsIn]
    split_ifs with h
    · rw [List.sorted_cons]
      refine ⟨fun x hx => ?_, ih (b + 1)⟩
      have := (bitsIn_mem w n (b + 1) x).mp hx
      omega
    · exact ih (b + 1)

/-- Helper for C3: at most n bits are set in a range of n bits. -/
theorem bitsIn_length (w : Nat) :
    ∀ (n b : Nat), (bitsIn w b n).length ≤ n := by
  intro n
  induction n with
  | zero => intro b; simp [bitsIn]
  | succ n ih =>
    intro b
    rw [bitsIn]
    split_ifs with h
    · simpa using ih (b + 1)
    · exact Nat.le_trans (ih (b + 1)) (by omega)

/-- Helper for C3: a word with zero tail from b on has no set bits there. -/
theorem bitsFrom_nil_of_shift (w b : Nat) (h : w >>> b = 0) :
    bitsFrom w b = [] := by
  rw [List.eq_nil_iff_forall_not_mem]
  intro k hk
  obtain ⟨h1, _, h3⟩ := (bitsIn_mem w (32 - b) b k).mp hk
  rw [Nat.shiftRight_eq_div_pow] at h
  have hwb : w < 2 ^ b := by
    rcases Nat.lt_or_ge w (2 ^ b) with hlt | hge
    · exact hlt
    · exact absurd h (by have := Nat.div_le_div_right (c := 2 ^ b) hge; simp at this; omega)
  have hwk : w < 2 ^ k := Nat.lt_of_lt_of_le hwb (Nat.pow_le_pow_right (by omega) h1)
  rw [Nat.testBit_to_div_mod, Nat.div_eq_of_lt hwk] at h3
  simp at h3

/-- Helper for C3: unfolding at a set bit. -/
theorem bitsFrom_cons (w b : Nat) (hb : b < 32) (ht : w.testBit b = true) :
    bitsFrom w b = b :: bitsFrom w (b + 1) := by
  unfold bitsFrom
  have h32 : 32 - b = (32 - (b + 1)) + 1 := by omega
  rw [h32, bitsIn, if_pos ht]

/-- Helper for C3: unfolding at an unset bit. -/
theorem bitsFrom_skip (w b : Nat) (hb : b < 32) (ht : w.testBit b = false) :
    bitsFrom w b = bitsFrom w (b + 1) := by
  unfold bitsFrom
  have h32 : 32 - b = (32 - (b + 1)) + 1 := by omega
  rw [h32, bitsIn, if_neg (by simp [ht])]

/-- Helper for C3: nothing at or past bit 32. -/
theorem bitsFrom_32 (w : Nat) : bitsFrom w 32 = [] := by
  simp [bitsFrom, bitsIn]

/-! C3 helper lemmas: the inner bit scan. -/

/-- Helper for C3: the scan reports no bit when the rest of the word is
zero. -/
theorem scanWord_none (fuel bits b : Nat) (h : bits >>> b = 0)
    (hfuel : 0 < fuel) : scanWord fuel bits b = none := by
  cases fuel with
  | zero => omega
  | succ fuel => simp [scanWord, h]

/-- Helper for C3: on a 32-bit word with a set bit at or after b ≤ 31, the
scan finds exactly the first such bit (with fuel past 32 - b). -/
theorem scanWord_some (w : Nat) (hw : w < 2 ^ 32) :
    ∀ (fuel b : Nat), b ≤ 31 → w >>> b ≠ 0 → 32 - b < fuel →
      ∃ x, scanWord fuel w b = some x ∧ b ≤ x ∧ x ≤ 31 ∧
        w.testBit x = true ∧ bitsFrom w b = x :: bitsFrom w (x + 1) := by
  intro fuel
  induction fuel with
  | zero => intro b _ _ h; omega
  | succ fuel ih =>
    intro b hb hnz hfuel
    by_cases h1 : (w >>> b) &&& 1 = 1
    · have htb : w.testBit b = true := by
        rw [Nat.and_one_is_mod] at h1
        rw [Nat.testBit_to_div_mod, ← Nat.shiftRight_eq_div_pow]
        simp [h1]
      refine ⟨b, ?_, Nat.le_refl _, hb, htb, bitsFrom_cons w b (by omega) htb⟩
      simp [scanWord, h1]
    · have heven : (w >>> b) % 2 = 0 := by
        rw [Nat.and_one_is_mod] at h1
        omega
      have htb : w.testBit b = false := by
        rw [Nat.testBit_to_div_mod, ← Nat.shiftRight_eq_div_pow]
        simp [heven]
      by_cases hb31 : b + 1 > 31
      · exfalso
        have hb' : b = 31 := by omega
        subst hb'
        have hlt : w >>> 31 < 2 := by
          rw [Nat.shiftRight_eq_div_pow]
          exact Nat.div_lt_of_lt_mul (by norm_num at hw ⊢; omega)
        omega
      · have hshift : w >>> (b + 1) = (w >>> b) / 2 := by
          rw [Nat.shiftRight_eq_div_pow, Nat.shiftRight_eq_div_pow,
            Nat.pow_succ, ← Nat.div_div_eq_div_mul]
        have hnz2 : w >>> (b + 1) ≠ 0 := by
          rw [hshift]
          omega
        obtain ⟨x, hx, hbx, hx31, hxtb, hxbits⟩ :=
          ih (b + 1) (by omega) hnz2 (by omega)
        refine ⟨x, ?_, by omega, hx31, hxtb, ?_⟩
        · rw [scanWord]
          simp only [h1, if_false]
          rw [if_neg hnz, if_neg hb31]
          exact hx
        · rw [bitsFrom_skip w b (by omega) htb, hxbits]

/-! C3 helper lemmas: decomposing the remaining-elements list. -/

/-- Helper for C3: a page contributes nothing past its last word. -/
theorem pageElemsFrom_nil (base : Nat) (mp : List Nat) (i b : Nat)
    (h : mp.length ≤ i) : pageElemsFrom base mp i b = [] := by
  unfold pageElemsFrom
  rw [List.drop_eq_nil_of_le h]
  rfl

/-- Helper for C3: splitting a page's elements at the current word. -/
theorem pageElemsFrom_cons (base : Nat) (mp : List Nat) (i b : Nat)
    (h : i < mp.length) :
    pageElemsFrom base mp i b =
      wordElemsFrom base i (mp.getD i 0) b ++
        pageElemsFrom base mp (i + 1) 0 := by
  unfold pageElemsFrom
  rw [List.drop_eq_getElem_cons h, wordsElemsAux]
  congr 2
  simp [List.getElem?_eq_getElem h]

/-- Helper for C3: a word with no set bit from b on contributes nothing. -/
theorem wordElemsFrom_nil (base i w b : Nat) (h : bitsFrom w b = []) :
    wordElemsFrom base i w b = [] := by
  unfold wordElemsFrom
  rw [h]
  rfl

/-- Helper for C3: a valid scalar value is below 0x110000. -/
theorem isValidCharNat_lt (n : Nat) (h : isValidCharNat n = true) :
    n < 1114112 := by
  unfold isValidCharNat at h
  simp at h
  rcases h with h | ⟨h1, h2⟩ <;> omega

/-- Helper for C3: the step characterization of the embedded `Iter::next`.
From a well-formed state with sufficient fuel, the fuelled step yields
exactly the head of the remaining-elements list (or the iterator's None when
nothing remains), and the successor state is well-formed with the tail
remaining. -/
theorem csNextF_spec :
    ∀ (fuel : Nat) (s : CsIterState), CsWF s →
      10 * s.pages.length + (9 - s.i) +
        (if s.codepoint = FC_CHARSET_DONE then 1 else 2) ≤ fuel →
      (csRem s = [] → csNextF fuel s = some none) ∧
      (∀ c t, csRem s = c :: t →
        ∃ s2, csNextF fuel s = some (some (c, s2)) ∧ CsWF s2 ∧ csRem s2 = t ∧
          s2.pages.length ≤ s.pages.length) := by
  intro fuel
  induction fuel with
  | zero =>
    intro s _ hf
    exfalso
    split_ifs at hf <;> omega
  | succ fuel ih =>
    intro s hwf hf
    by_cases hdone : s.codepoint = FC_CHARSET_DONE
    · refine ⟨fun _ => ?_, fun c t hct => absurd hct ?_⟩
      · rw [csNextF, if_pos hdone]
      · rw [csRem, if_pos hdone]
        simp
    · have hrem : csRem s =
          pageElemsFrom s.codepoint s.map s.i s.bit ++ pagesElems s.pages := by
        rw [csRem, if_neg hdone]
      have hf2 : 10 * s.pages.length + (9 - s.i) + 2 ≤ fuel + 1 := by
        rw [if_neg hdone] at hf
        exact hf
      by_cases hi : FC_CHARSET_MAP_SIZE ≤ s.i
      · have hi8 : 8 ≤ s.i := by
          unfold FC_CHARSET_MAP_SIZE at hi
          exact hi
        have hnil : pageElemsFrom s.codepoint s.map s.i s.bit = [] :=
          pageElemsFrom_nil _ _ _ _ (by rw [hwf.maplen]; omega)
        rcases hpg : s.pages with _ | ⟨p, rest⟩
        · -- no page left: install the sentinel and finish on recursion
          have hrs : csRem s = [] := by
            rw [hrem, hnil, hpg]
            rfl
          have hwf2 : CsWF
              { s with codepoint := FC_CHARSET_DONE,
                       pages := ([] : List FcPage) } := by
            refine ⟨hwf.maplen, hwf.mapbound, ?_, ?_, hwf.ibound, hwf.bitbound,
              hwf.bitzero, ?_, ?_⟩
            · intro p hp
              simp at hp
            · intro p hp
              simp at hp
            · intro p hp
              simp at hp
            · intro c hc
              rw [csRem] at hc
              simp at hc
          have hrem2 : csRem
              { s with codepoint := FC_CHARSET_DONE,
                       pages := ([] : List FcPage) } = [] := by
            rw [csRem]
            simp
          have hstep := ih _ hwf2 (by rw [hpg] at hf2; simp; omega)
          refine ⟨fun _ => ?_, fun c t hct => absurd (hrs ▸ hct) ?_⟩
          · rw [csNextF, if_neg hdone, if_pos hi, hpg]
            exact hstep.1 hrem2
          · simp
        · -- load the next page; i resets, bit is already 0
          have hbit0 : s.bit = 0 := hwf.bitzero hi8
          have hpmem : p ∈ s.pages := by
            rw [hpg]
            exact List.mem_cons_self p rest
          have hpbase : p.base ≠ FC_CHARSET_DONE := hwf.pagesBase p hpmem
          have hwf2 : CsWF
              { s with codepoint := p.base, map := p.map, pages := rest,
                       i := 0 } := by
            refine ⟨hwf.pagelen p hpmem, hwf.pagebound p hpmem, ?_, ?_,
              Nat.zero_le 8, hwf.bitbound, ?_, ?_, ?_⟩
            · intro q hq
              exact hwf.pagelen q (by rw [hpg]; exact List.mem_cons_of_mem p hq)
            · intro q hq
              exact hwf.pagebound q (by rw [hpg]; exact List.mem_cons_of_mem p hq)
            · intro h8
              simp at h8
            · intro q hq
              exact hwf.pagesBase q (by rw [hpg]; exact List.mem_cons_of_mem p hq)
            · intro c hc
              apply hwf.valid
              rw [hrem, hnil, hpg]
              rw [csRem, if_neg hpbase] at hc
              simp only [hbit0] at hc ⊢
              exact hc
          have hremeq : csRem
              { s with codepoint := p.base, map := p.map, pages := rest,
                       i := 0 } = csRem s := by
            rw [csRem, if_neg hpbase, hrem, hnil, hpg]
            simp only [hbit0]
            rfl
          have hstep := ih _ hwf2 (by
            rw [hpg] at hf2
            simp only [List.length_cons] at hf2
            simp [hpbase]
            omega)
          have hred : csNextF (fuel + 1) s = csNextF fuel
              { s with codepoint := p.base, map := p.map, pages := rest,
                       i := 0 } := by
            rw [csNextF, if_neg hdone, if_pos hi, hpg]
          refine ⟨fun h0 => ?_, fun c t hct => ?_⟩
          · rw [hred]
            exact hstep.1 (by rw [hremeq]; exact h0)
          · obtain ⟨s3, h1, h2, h3, h4⟩ := hstep.2 c t (by rw [hremeq]; exact hct)
            refine ⟨s3, by rw [hred]; exact h1, h2, h3, ?_⟩
            have h4a : s3.pages.length ≤ rest.length := h4
            simp only [List.length_cons]
            omega
      · -- inside the page: scan word s.i
        have hi8 : s.i < 8 := by
          unfold FC_CHARSET_MAP_SIZE at hi
          omega
        have hilen : s.i < s.map.length := by rw [hwf.maplen]; omega
        have hwlt : s.map.getD s.i 0 < 2 ^ 32 := by
          have : s.map.getD s.i 0 = s.map[s.i] := by
            simp [List.getElem?_eq_getElem hilen]
          rw [this]
          exact hwf.mapbound _ (s.map.getElem_mem hilen)
        have hsplit : pageElemsFrom s.codepoint s.map s.i s.bit =
            wordElemsFrom s.codepoint s.i (s.map.getD s.i 0) s.bit ++
              pageElemsFrom s.codepoint s.map (s.i + 1) 0 :=
          pageElemsFrom_cons _ _ _ _ hilen
        -- common handling of the two advance-word paths
        have hadvance : ∀ (hnilw : bitsFrom (s.map.getD s.i 0) s.bit = []),
            CsWF { s with i := s.i + 1, bit := 0 } ∧
            csRem { s with i := s.i + 1, bit := 0 } = csRem s := by
          intro hnilw
          have hremeq : csRem { s with i := s.i + 1, bit := 0 } = csRem s := by
            rw [csRem, if_neg hdone, hrem, hsplit,
              wordElemsFrom_nil _ _ _ _ hnilw]
            rfl
          refine ⟨⟨hwf.maplen, hwf.mapbound, hwf.pagelen, hwf.pagebound,
            by simp; omega, by simp, fun _ => rfl, hwf.pagesBase, ?_⟩, hremeq⟩
          intro c hc
          exact hwf.valid c (by rw [← hremeq]; exact hc)
        by_cases hw0 : s.map.getD s.i 0 = 0
        · have hnilw : bitsFrom (s.map.getD s.i 0) s.bit = [] := by
            rw [hw0]
            exact bitsFrom_nil_of_shift 0 s.bit (Nat.zero_shiftRight s.bit)
          obtain ⟨hwf2, hremeq⟩ := hadvance hnilw
          have hstep := ih _ hwf2 (by simp [hdone]; omega)
          have hred : csNextF (fuel + 1) s =
              csNextF fuel { s with i := s.i + 1, bit := 0 } := by
            rw [csNextF, if_neg hdone, if_neg hi]
            simp only [hw0]
            exact if_pos trivial
          refine ⟨fun h0 => ?_, fun c t hct => ?_⟩
          · rw [hred]
            exact hstep.1 (by rw [hremeq]; exact h0)
          · obtain ⟨s3, h1, h2, h3, h4⟩ := hstep.2 c t (by rw [hremeq]; exact hct)
            exact ⟨s3, by rw [hred]; exact h1, h2, h3, by simpa using h4⟩
        · by_cases hshift : (s.map.getD s.i 0) >>> s.bit = 0
          · have hnilw : bitsFrom (s.map.getD s.i 0) s.bit = [] :=
              bitsFrom_nil_of_shift _ _ hshift
            obtain ⟨hwf2, hremeq⟩ := hadvance hnilw
            have hstep := ih _ hwf2 (by simp [hdone]; omega)
            have hred : csNextF (fuel + 1) s =
                csNextF fuel { s with i := s.i + 1, bit := 0 } := by
              rw [csNextF, if_neg hdone, if_neg hi]
              simp only [if_neg hw0]
              rw [scanWord_none 33 _ _ hshift (by norm_num)]
            refine ⟨fun h0 => ?_, fun c t hct => ?_⟩
            · rw [hred]
              exact hstep.1 (by rw [hremeq]; exact h0)
            · obtain ⟨s3, h1, h2, h3, h4⟩ := hstep.2 c t (by rw [hremeq]; exact hct)
              exact ⟨s3, by rw [hred]; exact h1, h2, h3, by simpa using h4⟩
          · -- a set bit exists in the current word: yield it
            obtain ⟨x, hsx, hbx, hx31, hxtb, hxbits⟩ :=
              scanWord_some _ hwlt 33 s.bit hwf.bitbound hshift (by omega)
            have hhead : wordElemsFrom s.codepoint s.i (s.map.getD s.i 0) s.bit =
                (s.codepoint + 32 * s.i + x) ::
                  wordElemsFrom s.codepoint s.i (s.map.getD s.i 0) (x + 1) := by
              unfold wordElemsFrom
              rw [hxbits]
              rfl
            have hremc : csRem s = (s.codepoint + 32 * s.i + x) ::
                (wordElemsFrom s.codepoint s.i (s.map.getD s.i 0) (x + 1) ++
                  (pageElemsFrom s.codepoint s.map (s.i + 1) 0 ++
                    pagesElems s.pages)) := by
              rw [hrem, hsplit, hhead]
              simp [List.append_assoc]
            have hvc : isValidCharNat (s.codepoint + 32 * s.i + x) = true :=
              hwf.valid _ (by rw [hremc]; exact List.mem_cons_self _ _)
            have hmod : (s.codepoint + 32 * s.i + x) % 2 ^ 32 =
                s.codepoint + 32 * s.i + x := by
              have := isValidCharNat_lt _ hvc
              exact Nat.mod_eq_of_lt (by omega)
            have hred : csNextF (fuel + 1) s =
                some (some (s.codepoint + 32 * s.i + x,
                  if x + 1 > 31 then { s with i := s.i + 1, bit := 0 }
                  else { s with bit := x + 1 })) := by
              rw [csNextF, if_neg hdone, if_neg hi]
              simp only [if_neg hw0]
              rw [hsx]
              simp only [hmod, hvc]
              rw [if_pos trivial]
            have htail : csRem (if x + 1 > 31 then { s with i := s.i + 1, bit := 0 }
                else { s with bit := x + 1 }) =
                wordElemsFrom s.codepoint s.i (s.map.getD s.i 0) (x + 1) ++
                  (pageElemsFrom s.codepoint s.map (s.i + 1) 0 ++
                    pagesElems s.pages) := by
              by_cases hx1 : x + 1 > 31
              · have hx31' : x = 31 := by omega
                rw [if_pos hx1, csRem, if_neg hdone]
                have : bitsFrom (s.map.getD s.i 0) (x + 1) = [] := by
                  rw [hx31']
                  exact bitsFrom_32 _
                rw [wordElemsFrom_nil _ _ _ _ this]
                rfl
              · rw [if_neg hx1, csRem, if_neg hdone]
                have : pageElemsFrom s.codepoint s.map s.i (x + 1) =
                    wordElemsFrom s.codepoint s.i (s.map.getD s.i 0) (x + 1) ++
                      pageElemsFrom s.codepoint s.map (s.i + 1) 0 :=
                  pageElemsFrom_cons _ _ _ _ hilen
                rw [this]
                simp [List.append_assoc]
            have hwf2 : CsWF (if x + 1 > 31 then { s with i := s.i + 1, bit := 0 }
                else { s with bit := x + 1 }) := by
              by_cases hx1 : x + 1 > 31
              · rw [if_pos hx1]
                refine ⟨hwf.maplen, hwf.mapbound, hwf.pagelen, hwf.pagebound,
                  by simp; omega, by simp, fun _ => rfl, hwf.pagesBase, ?_⟩
                intro c hc
                apply hwf.valid
                rw [hremc]
                refine List.mem_cons_of_mem _ ?_
                rw [← htail, if_pos hx1]
                exact hc
              · rw [if_neg hx1]
                refine ⟨hwf.maplen, hwf.mapbound, hwf.pagelen, hwf.pagebound,
                  by simpa using hwf.ibound, by simp; omega, ?_, hwf.pagesBase, ?_⟩
                · intro h8
                  simp at h8
                  omega
                · intro c hc
                  apply hwf.valid
                  rw [hremc]
                  refine List.mem_cons_of_mem _ ?_
                  rw [← htail, if_neg hx1]
                  exact hc
            refine ⟨fun h0 => absurd (hremc ▸ h0) (by simp),
              fun c t hct => ?_⟩
            rw [hremc] at hct
            injection hct with h5 h6
            subst h5
            subst h6
            refine ⟨_, hred, hwf2, htail, ?_⟩
            by_cases hx1 : x + 1 > 31
            · rw [if_pos hx1]
            · rw [if_neg hx1]

/-- Helper for C3: the fixed-fuel step `csNext` realizes the step
characterization (csNextFuel is always sufficient). -/
theorem csNext_spec (s : CsIterState) (hwf : CsWF s) :
    (csRem s = [] → csNext s = none) ∧
    (∀ c t, csRem s = c :: t →
      ∃ s2, csNext s = some (c, s2) ∧ CsWF s2 ∧ csRem s2 = t) := by
  have h := csNextF_spec (csNextFuel s) s hwf
    (by unfold csNextFuel; split_ifs <;> omega)
  unfold csNext
  refine ⟨fun h0 => ?_, fun c t hct => ?_⟩
  · rw [h.1 h0]
    rfl
  · obtain ⟨s2, h1, h2, h3, _⟩ := h.2 c t hct
    exact ⟨s2, by rw [h1]; rfl, h2, h3⟩

/-- Helper for C3: with fuel beyond the remaining-element count, running the
iterator to exhaustion yields exactly the remaining elements. -/
theorem csCollect_spec :
    ∀ (n : Nat) (s : CsIterState), CsWF s → (csRem s).length < n →
      csCollect n s = csRem s := by
  intro n
  induction n with
  | zero => intro s _ h; omega
  | succ n ih =>
    intro s hwf hlen
    rw [csCollect]
    cases hrem : csRem s with
    | nil =>
      rw [(csNext_spec s hwf).1 hrem]
    | cons c t =>
      obtain ⟨s2, h1, h2, h3⟩ := (csNext_spec s hwf).2 c t hrem
      rw [h1]
      show c :: csCollect n s2 = c :: t
      have hlen2 : (csRem s2).length < n := by
        rw [h3]
        rw [hrem] at hlen
        simp at hlen
        omega
      rw [ih s2 h2 hlen2, h3]

/-! C3 helper lemmas: membership in the page decomposition. -/

/-- Helper for C3: membership in a single word's contribution. -/
theorem mem_wordElemsFrom (base i w b x : Nat) :
    x ∈ wordElemsFrom base i w b ↔
      ∃ k, b ≤ k ∧ k < 32 ∧ w.testBit k = true ∧ x = base + 32 * i + k := by
  unfold wordElemsFrom bitsFrom
  rw [List.mem_map]
  constructor
  · rintro ⟨k, hk, rfl⟩
    obtain ⟨h1, h2, h3⟩ := (bitsIn_mem w (32 - b) b k).mp hk
    exact ⟨k, h1, by omega, h3, rfl⟩
  · rintro ⟨k, h1, h2, h3, rfl⟩
    exact ⟨k, (bitsIn_mem w (32 - b) b k).mpr ⟨h1, by omega, h3⟩, rfl⟩

/-- Helper for C3: membership across the words of a page scanned in full. -/
theorem mem_wordsElemsAux (base : Nat) :
    ∀ (ws : List Nat) (i x : Nat),
      x ∈ wordsElemsAux base i 0 ws ↔
        ∃ j k, j < ws.length ∧ k < 32 ∧ (ws.getD j 0).testBit k = true ∧
          x = base + 32 * (i + j) + k := by
  intro ws
  induction ws with
  | nil => intro i x; simp [wordsElemsAux]
  | cons w ws ih =>
    intro i x
    rw [wordsElemsAux, List.mem_append, mem_wordElemsFrom, ih (i + 1)]
    constructor
    · rintro (⟨k, _, h2, h3, rfl⟩ | ⟨j, k, h1, h2, h3, rfl⟩)
      · exact ⟨0, k, by simp, h2, by simpa using h3, by omega⟩
      · exact ⟨j + 1, k, by simpa using h1, h2, by simpa using h3, by omega⟩
    · rintro ⟨j, k, h1, h2, h3, rfl⟩
      cases j with
      | zero =>
        exact Or.inl ⟨k, Nat.zero_le k, h2, by simpa using h3, by omega⟩
      | succ j =>
        exact Or.inr ⟨j, k, by simpa using h1, h2, by simpa using h3, by omega⟩

/-- Helper for C3: the page bitmap has 8 words. -/
theorem pageMap_length (cs : List Nat) (base : Nat) :
    (pageMap cs base).length = 8 := by
  simp [pageMap]

/-- Helper for C3: each page bitmap word fits in 32 bits. -/
theorem pageMap_bound (cs : List Nat) (base : Nat) :
    ∀ w ∈ pageMap cs base, w < 2 ^ 32 := by
  intro w hw
  unfold pageMap at hw
  obtain ⟨j, _, rfl⟩ := List.mem_map.mp hw
  exact wordOfAux_lt cs 32 _

/-- Helper for C3: indexing the page bitmap. -/
theorem pageMap_getD (cs : List Nat) (base j : Nat) (h : j < 8) :
    (pageMap cs base).getD j 0 = wordOf cs (base + 32 * j) := by
  unfold pageMap
  rw [List.getD_eq_getElem?_getD, List.getElem?_map, List.getElem?_range h]
  rfl

/-- Helper for C3: membership in a derived page's elements is membership in
the set within the page's 256-code-point range. -/
theorem mem_pageElems_pageMap (cs : List Nat) (base x : Nat) :
    x ∈ pageElems ⟨base, pageMap cs base⟩ ↔
      x ∈ cs ∧ base ≤ x ∧ x < base + 256 := by
  show x ∈ pageElemsFrom base (pageMap cs base) 0 0 ↔ _
  unfold pageElemsFrom
  rw [List.drop_zero, mem_wordsElemsAux]
  constructor
  · rintro ⟨j, k, h1, h2, h3, rfl⟩
    rw [pageMap_length] at h1
    rw [pageMap_getD cs base j h1] at h3
    unfold wordOf at h3
    rw [testBit_wordOfAux] at h3
    simp only [Bool.and_eq_true, decide_eq_true_eq] at h3
    have heq : base + 32 * (0 + j) + k = base + 32 * j + k := by omega
    rw [heq]
    exact ⟨h3.2, by omega, by omega⟩
  · rintro ⟨hx, hb, hlt⟩
    refine ⟨(x - base) / 32, (x - base) % 32, ?_, ?_, ?_, ?_⟩
    · rw [pageMap_length]
      omega
    · omega
    · rw [pageMap_getD cs base _ (by omega)]
      unfold wordOf
      rw [testBit_wordOfAux]
      simp only [Bool.and_eq_true, decide_eq_true_eq]
      refine ⟨by omega, ?_⟩
      have : base + 32 * ((x - base) / 32) + (x - base) % 32 = x := by omega
      rw [this]
      exact hx
    · omega

/-- Helper for C3: membership in the concatenation of pages. -/
theorem mem_pagesElems :
    ∀ (ps : List FcPage) (x : Nat),
      x ∈ pagesElems ps ↔ ∃ p ∈ ps, x ∈ pageElems p := by
  intro ps
  induction ps with
  | nil => intro x; simp [pagesElems]
  | cons p ps ih =>
    intro x
    rw [pagesElems, List.mem_append, ih]
    simp

/-- Helper for C3: the derived pages together hold exactly the members of
the set that lie in the covered scalar range. -/
theorem mem_pagesElems_pagesOf (cs : List Nat) (x : Nat) :
    x ∈ pagesElems (pagesOf cs) ↔ x ∈ cs ∧ x < 1114112 := by
  rw [mem_pagesElems]
  constructor
  · rintro ⟨p, hp, hx⟩
    unfold pagesOf at hp
    obtain ⟨q, hq, rfl⟩ := List.mem_map.mp hp
    rw [List.mem_filter, List.mem_range] at hq
    rw [mem_pageElems_pageMap] at hx
    exact ⟨hx.1, by omega⟩
  · rintro ⟨hx, hlt⟩
    refine ⟨⟨256 * (x / 256), pageMap cs (256 * (x / 256))⟩, ?_, ?_⟩
    · unfold pagesOf
      rw [List.mem_map]
      refine ⟨x / 256, ?_, rfl⟩
      rw [List.mem_filter, List.mem_range]
      refine ⟨by omega, ?_⟩
      rw [List.any_eq_true]
      exact ⟨x, hx, by simp⟩
    · rw [mem_pageElems_pageMap]
      exact ⟨hx, by omega, by omega⟩

/-! C3 helper lemmas: order and size of the page decomposition. -/

/-- Helper for C3: one word's contribution is strictly ascending. -/
theorem wordElemsFrom_sorted (base i w b : Nat) :
    (wordElemsFrom base i w b).Sorted (· < ·) := by
  unfold wordElemsFrom bitsFrom
  exact List.Pairwise.map _ (fun a b' h => by omega) (bitsIn_sorted w (32 - b) b)

/-- Helper for C3: bounds on a word run's contribution. -/
theorem wordsElemsAux_bound (base : Nat) :
    ∀ (ws : List Nat) (i b x : Nat), x ∈ wordsElemsAux base i b ws →
      base + 32 * i ≤ x ∧ x < base + 32 * (i + ws.length) := by
  intro ws
  induction ws with
  | nil => intro i b x hx; simp [wordsElemsAux] at hx
  | cons w ws ih =>
    intro i b x hx
    rw [wordsElemsAux, List.mem_append] at hx
    rcases hx with hx | hx
    · obtain ⟨k, _, h2, _, rfl⟩ := (mem_wordElemsFrom base i w b x).mp hx
      simp only [List.length_cons]
      omega
    · have := ih (i + 1) 0 x hx
      simp only [List.length_cons]
      omega

/-- Helper for C3: a word run's contribution is strictly ascending. -/
theorem wordsElemsAux_sorted (base : Nat) :
    ∀ (ws : List Nat) (i b : Nat), (wordsElemsAux base i b ws).Sorted (· < ·) := by
  intro ws
  induction ws with
  | nil => intro i b; simp [wordsElemsAux]
  | cons w ws ih =>
    intro i b
    rw [wordsElemsAux]
    rw [List.Sorted, List.pairwise_append]
    refine ⟨wordElemsFrom_sorted base i w b, ih (i + 1) 0, ?_⟩
    intro x hx y hy
    obtain ⟨k, _, h2, _, rfl⟩ := (mem_wordElemsFrom base i w b x).mp hx
    have := wordsElemsAux_bound base ws (i + 1) 0 y hy
    omega

/-- Helper for C3: a page's elements lie in its 256-code-point range. -/
theorem pageElems_bound (p : FcPage) (x : Nat) (hx : x ∈ pageElems p) :
    p.base ≤ x ∧ x < p.base + 32 * p.map.length := by
  have := wordsElemsAux_bound p.base p.map 0 0 x (by
    have h0 : p.map.drop 0 = p.map := List.drop_zero p.map
    unfold pageElems pageElemsFrom at hx
    rw [h0] at hx
    exact hx)
  omega

/-- Helper for C3: a page's elements are strictly ascending. -/
theorem pageElems_sorted (p : FcPage) : (pageElems p).Sorted (· < ·) := by
  unfold pageElems pageElemsFrom
  rw [List.drop_zero]
  exact wordsElemsAux_sorted p.base p.map 0 0

/-- Helper for C3: pages derived from an ascending list of page indices
concatenate to a strictly ascending element list. -/
theorem pagesElems_sorted_of_sorted (cs : List Nat) :
    ∀ qs : List Nat, qs.Sorted (· < ·) →
      (pagesElems (qs.map
        (fun q => ⟨256 * q, pageMap cs (256 * q)⟩))).Sorted (· < ·) := by
  intro qs
  induction qs with
  | nil => intro _; simp [pagesElems]
  | cons q qs ih =>
    intro hs
    rw [List.sorted_cons] at hs
    rw [List.map_cons, pagesElems, List.Sorted, List.pairwise_append]
    refine ⟨pageElems_sorted _, ih hs.2, ?_⟩
    intro x hx y hy
    have hxb := pageElems_bound _ x hx
    simp only [pageMap_length] at hxb
    obtain ⟨p, hp, hyp⟩ := (mem_pagesElems _ y).mp hy
    obtain ⟨r, hr, rfl⟩ := List.mem_map.mp hp
    have hyb := pageElems_bound _ y hyp
    have hqr : q < r := hs.1 r hr
    simp only [pageMap_length] at hyb
    omega

/-- Helper for C3: sizes — one word contributes at most 32 elements. -/
theorem wordsElemsAux_length (base : Nat) :
    ∀ (ws : List Nat) (i b : Nat),
      (wordsElemsAux base i b ws).length ≤ 32 * ws.length := by
  intro ws
  induction ws with
  | nil => intro i b; simp [wordsElemsAux]
  | cons w ws ih =>
    intro i b
    rw [wordsElemsAux]
    rw [List.length_append]
    have h1 : (wordElemsFrom base i w b).length ≤ 32 := by
      unfold wordElemsFrom bitsFrom
      rw [List.length_map]
      exact Nat.le_trans (bitsIn_length w (32 - b) b) (by omega)
    have h2 := ih (i + 1) 0
    simp only [List.length_cons]
    omega

/-- Helper for C3: sizes — pages of 8 words contribute at most 256 elements
each. -/
theorem pagesElems_length (ps : List FcPage)
    (h : ∀ p ∈ ps, p.map.length = 8) :
    (pagesElems ps).length ≤ 256 * ps.length := by
  induction ps with
  | nil => simp [pagesElems]
  | cons p ps ih =>
    rw [pagesElems, List.length_append]
    have h1 : (pageElems p).length ≤ 256 := by
      have := wordsElemsAux_length p.base p.map 0 0
      rw [h p (List.mem_cons_self p ps)] at this
      unfold pageElems pageElemsFrom
      rw [List.drop_zero]
      have h2 := wordsElemsAux_length p.base p.map 0 0
      rw [h p (List.mem_cons_self p ps)] at h2
      omega
    have h2 := ih (fun q hq => h q (List.mem_cons_of_mem p hq))
    simp only [List.length_cons]
    omega

/-- Helper for C3: shape of every derived page. -/
theorem pagesOf_shape (cs : List Nat) :
    ∀ p ∈ pagesOf cs, ∃ q, q < 4352 ∧
      p = ⟨256 * q, pageMap cs (256 * q)⟩ := by
  intro p hp
  unfold pagesOf at hp
  obtain ⟨q, hq, rfl⟩ := List.mem_map.mp hp
  rw [List.mem_filter, List.mem_range] at hq
  exact ⟨q, hq.1, rfl⟩

/-- Helper for C3: the remaining elements of a fresh iterator are exactly
the pages' elements. -/
theorem csRem_init (cs : List Nat) :
    csRem (csIterInit cs) = pagesElems (pagesOf cs) := by
  rcases hpg : pagesOf cs with _ | ⟨p, rest⟩
  · have hinit : csIterInit cs =
        ⟨FC_CHARSET_DONE, List.replicate 8 0, [], 0, 0⟩ := by
      unfold csIterInit
      rw [hpg]
    rw [hinit, csRem]
    simp [pagesElems]
  · have hbase : p.base ≠ FC_CHARSET_DONE := by
      obtain ⟨q, hq, rfl⟩ := pagesOf_shape cs p
        (by rw [hpg]; exact List.mem_cons_self p rest)
      unfold FC_CHARSET_DONE
      simp only
      omega
    have hinit : csIterInit cs = ⟨p.base, p.map, rest, 0, 0⟩ := by
      unfold csIterInit
      rw [hpg]
    rw [hinit, csRem, if_neg hbase]
    rfl

/-- Helper for C3: the fresh iterator state is well-formed. -/
theorem csIterInit_wf (cs : List Nat)
    (hv : ∀ c ∈ cs, isValidCharNat c = true) : CsWF (csIterInit cs) := by
  have hvrem : ∀ c ∈ csRem (csIterInit cs), isValidCharNat c = true := by
    intro c hc
    rw [csRem_init cs, mem_pagesElems_pagesOf] at hc
    exact hv c hc.1
  rcases hpg : pagesOf cs with _ | ⟨p, rest⟩
  · have hinit : csIterInit cs =
        ⟨FC_CHARSET_DONE, List.replicate 8 0, [], 0, 0⟩ := by
      unfold csIterInit
      rw [hpg]
    rw [hinit] at hvrem ⊢
    refine ⟨by simp, ?_, by simp, by simp, Nat.zero_le 8, Nat.zero_le 31,
      fun _ => rfl, by simp, hvrem⟩
    intro w hw
    rw [List.eq_of_mem_replicate hw]
    omega
  · have hinit : csIterInit cs = ⟨p.base, p.map, rest, 0, 0⟩ := by
      unfold csIterInit
      rw [hpg]
    rw [hinit] at hvrem ⊢
    have hmemself : p ∈ pagesOf cs := by
      rw [hpg]
      exact List.mem_cons_self p rest
    have hmemrest : ∀ q ∈ rest, q ∈ pagesOf cs := by
      intro q hq
      rw [hpg]
      exact List.mem_cons_of_mem p hq
    obtain ⟨qp, hqp, hpeq⟩ := pagesOf_shape cs p hmemself
    refine ⟨?_, ?_, ?_, ?_, Nat.zero_le 8, Nat.zero_le 31, fun _ => rfl,
      ?_, hvrem⟩
    · rw [hpeq]
      exact pageMap_length cs _
    · intro w hw
      rw [hpeq] at hw
      exact pageMap_bound cs _ w hw
    · intro q hq
      obtain ⟨r, _, hre⟩ := pagesOf_shape cs q (hmemrest q hq)
      rw [hre]
      exact pageMap_length cs _
    · intro q hq
      obtain ⟨r, _, hre⟩ := pagesOf_shape cs q (hmemrest q hq)
      intro w hw
      rw [hre] at hw
      exact pageMap_bound cs _ w hw
    · intro q hq
      obtain ⟨r, hr, hre⟩ := pagesOf_shape cs q (hmemrest q hq)
      rw [hre]
      unfold FC_CHARSET_DONE
      simp only
      omega

/-- C3: for every character set (whose members are Unicode scalar values,
the only values insertable through the wrapper), the page/bit-scan iterator
of `CharSet::iter`/`Iter::next` yields exactly the members of the set —
membership is preserved both ways — each exactly once (the yield list has no
duplicates), in ascending numeric order (the yield list is strictly sorted);
once the foreign sentinel is reached nothing more is yielded: any
sufficiently large fuel collects the same list. -/
theorem charset_iter_yields_sorted_members (cs : List Nat)
    (hv : ∀ c ∈ cs, isValidCharNat c = true) :
    (∀ c : Nat, c ∈ CharSet.iterList cs ↔ c ∈ cs) ∧
    (CharSet.iterList cs).Sorted (· < ·) ∧
    (CharSet.iterList cs).Nodup ∧
    (∀ n, (CharSet.iterList cs).length < n →
      csCollect n (csIterInit cs) = CharSet.iterList cs) := by
  have hwf := csIterInit_wf cs hv
  have hinit := csRem_init cs
  have hlen : (csRem (csIterInit cs)).length <
      256 * (pagesOf cs).length + 1 := by
    rw [hinit]
    have := pagesElems_length (pagesOf cs) (fun p hp => by
      obtain ⟨q, _, rfl⟩ := pagesOf_shape cs p hp
      exact pageMap_length cs _)
    omega
  have hiter : CharSet.iterList cs = csRem (csIterInit cs) :=
    csCollect_spec _ _ hwf hlen
  have hsorted : (csRem (csIterInit cs)).Sorted (· < ·) := by
    rw [hinit]
    unfold pagesOf
    exact pagesElems_sorted_of_sorted cs _
      (List.Sorted.filter _ (List.sorted_lt_range 4352))
  refine ⟨?_, ?_, ?_, ?_⟩
  · intro c
    rw [hiter, hinit, mem_pagesElems_pagesOf]
    exact ⟨fun h => h.1, fun h => ⟨h, isValidCharNat_lt c (hv c h)⟩⟩
  · rw [hiter]
    exact hsorted
  · rw [hiter]
    exact List.Pairwise.imp (fun h => by omega) hsorted
  · intro n hn
    rw [hiter] at hn ⊢
    exact csCollect_spec n _ hwf hn

set_option maxRecDepth 100000 in
/-- C3 witness: the theorem applied to the six-code-point set
{a, b, c, 汉, 字, 😐} built by the repository's own charset_iter test, and
the concrete full pass, which yields exactly those six scalars in ascending
numeric order. -/
theorem charset_iter_yields_sorted_members_witness :
    (∀ c ∈ [97, 98, 99, 27721, 23383, 128528], isValidCharNat c = true) ∧
    ((∀ c : Nat, c ∈ CharSet.iterList [97, 98, 99, 27721, 23383, 128528] ↔
        c ∈ [97, 98, 99, 27721, 23383, 128528]) ∧
      (CharSet.iterList [97, 98, 99, 27721, 23383, 128528]).Sorted (· < ·) ∧
      (CharSet.iterList [97, 98, 99, 27721, 23383, 128528]).Nodup ∧
      (∀ n, (CharSet.iterList [97, 98, 99, 27721, 23383, 128528]).length < n →
        csCollect n (csIterInit [97, 98, 99, 27721, 23383, 128528]) =
          CharSet.iterList [97, 98, 99, 27721, 23383, 128528])) ∧
    CharSet.iterList [97, 98, 99, 27721, 23383, 128528] =
      [97, 98, 99, 23383, 27721, 128528] :=
  ⟨by decide, charset_iter_yields_sorted_members _ (by decide), by decide⟩

end Fontconfig
